import Mathlib

/- Shallow embedding of src/index.ts of react-use-debounce.

   Time is measured in Nat milliseconds.  Wrapped function references are
   identified by Nat ids (funcRef.current and the function captured in a
   closure are tracked as such ids); argument tuples are a type parameter A.
   The platform timer service is a list of armed, unfired, uncancelled
   timers; clearTimeout removes a timer by id (a no-op on an id that has
   already fired); a timer keeps running after the owning component
   unmounts, exactly as in a browser event loop.  Every invocation of a
   wrapped function is appended to a log, recording the time, the function
   id used, and the argument tuple. -/

namespace UseDebounceModel

/-- One armed setTimeout: its handle id, absolute deadline, and the
function id and argument tuple captured by the scheduled closure
(per line 21 and line 55 of src/index.ts the closure captures the
func and args current at arming time). -/
structure Timer (A : Type) where
  id : Nat
  deadline : Nat
  funcId : Nat
  args : A
deriving Repr, DecidableEq

/-- One invocation of the wrapped function: when it ran, which function
reference was used, and with which argument tuple. -/
structure Invocation (A : Type) where
  time : Nat
  funcId : Nat
  args : A
deriving Repr, DecidableEq

/-- External events driving a debounced-function instance: a call of the
debounced handle, a re-render that changes the wrapped function reference,
and destruction (unmount) of the owning component instance. -/
inductive DbEvent (A : Type) where
  | call (args : A)
  | render (funcId : Nat)
  | destroy
deriving Repr, DecidableEq

/-- clearTimeout(r): removes the timer whose id is r, if it is still
armed; clearTimeout(undefined) and clearTimeout on a fired id do nothing. -/
def clearTimeoutOn {A : Type} (r : Option Nat) (ts : List (Timer A)) :
    List (Timer A) :=
  match r with
  | none => ts
  | some i => ts.filter (fun tm => decide (tm.id ≠ i))

/-- The invocations produced by firing every armed timer whose deadline
has been reached by time `now` (the event loop runs due callbacks before
later events). -/
def dueFires {A : Type} (now : Nat) (ts : List (Timer A)) :
    List (Invocation A) :=
  (ts.filter (fun tm => decide (tm.deadline ≤ now))).map
    (fun tm => ⟨tm.deadline, tm.funcId, tm.args⟩)

/-- The timers still armed after every timer due by `now` has fired. -/
def remainingTimers {A : Type} (now : Nat) (ts : List (Timer A)) :
    List (Timer A) :=
  ts.filter (fun tm => decide (now < tm.deadline))

/-- State of one useUnsafeDebounce instance (src/index.ts lines 16-23):
the timeoutRef cell, the current wrapped function reference (the one the
memoized handle of the latest render closes over), the armed timers, a fresh
timer-id counter, whether the owning component instance is still mounted,
and the invocation log. -/
structure UnsafeState (A : Type) where
  timeoutRef : Option Nat
  currentFunc : Nat
  timers : List (Timer A)
  nextId : Nat
  mounted : Bool
  log : List (Invocation A)
deriving Repr, DecidableEq

/-- Initial state at mount: no timeout armed, function reference 0. -/
def UnsafeState.init {A : Type} : UnsafeState A :=
  ⟨none, 0, [], 0, true, []⟩

/-- Fire every timer due by `now` on an useUnsafeDebounce instance.
The scheduled closure is `() => func(...args)` (line 21): it only invokes
the captured function; it does not touch timeoutRef, and it runs whether
or not the component is still mounted. -/
def fireDueU {A : Type} (now : Nat) (s : UnsafeState A) : UnsafeState A :=
  { s with
    timers := remainingTimers now s.timers,
    log := s.log ++ dueFires now s.timers }

/-- One external event on an useUnsafeDebounce instance.  A call (line 19-22)
runs clearTimeout(timeoutRef.current) then arms a new timer capturing the
current func and the args of the call, storing the new id in timeoutRef.
A render updates the function reference the handle closes over (useCallback
with deps [delay, func]).  Destroy merely unmounts: useUnsafeDebounce
registers no cleanup, so nothing is cancelled. -/
def applyEventU {A : Type} (delay t : Nat) (e : DbEvent A)
    (s : UnsafeState A) : UnsafeState A :=
  if s.mounted then
    match e with
    | .call args =>
        { s with
          timers := clearTimeoutOn s.timeoutRef s.timers ++
            [⟨s.nextId, t + delay, s.currentFunc, args⟩],
          timeoutRef := some s.nextId,
          nextId := s.nextId + 1 }
    | .render f => { s with currentFunc := f }
    | .destroy => { s with mounted := false }
  else s

/-- Process one timestamped event: first run every timer callback due by
that time, then apply the event. -/
def stepU {A : Type} (delay : Nat) (s : UnsafeState A)
    (te : Nat × DbEvent A) : UnsafeState A :=
  applyEventU delay te.1 te.2 (fireDueU te.1 s)

/-- Run a timestamped event trace on a fresh useUnsafeDebounce instance. -/
def runU {A : Type} (delay : Nat) (evs : List (Nat × DbEvent A)) :
    UnsafeState A :=
  evs.foldl (stepU delay) .init

/-- Let every still-armed timer fire at its deadline (time going to
infinity after the trace). -/
def fireAllU {A : Type} (s : UnsafeState A) : UnsafeState A :=
  { s with
    timers := [],
    log := s.log ++ s.timers.map (fun tm => ⟨tm.deadline, tm.funcId, tm.args⟩) }

/-- Run a trace and then let every remaining timer fire. -/
def runFullU {A : Type} (delay : Nat) (evs : List (Nat × DbEvent A)) :
    UnsafeState A :=
  fireAllU (runU delay evs)

/-- State of one useDebounce instance (src/index.ts lines 38-57): as the
unsafe variant plus the argsRef cell (latest captured argument tuple) read
by the unmount cleanup; currentFunc doubles as funcRef.current, which line
44 keeps equal to the func of the latest render. -/
structure SafeState (A : Type) where
  timeoutRef : Option Nat
  argsRef : Option A
  currentFunc : Nat
  timers : List (Timer A)
  nextId : Nat
  mounted : Bool
  log : List (Invocation A)
deriving Repr, DecidableEq

/-- Initial state at mount: nothing armed, no args captured. -/
def SafeState.init {A : Type} : SafeState A :=
  ⟨none, none, 0, [], 0, true, []⟩

/-- Fire every timer due by `now` on an useDebounce instance.  The timer
closure `() => func(...args)` (line 55) uses the func and args captured at
arming time; it clears neither timeoutRef nor argsRef, and it runs whether
or not the component is still mounted. -/
def fireDueS {A : Type} (now : Nat) (s : SafeState A) : SafeState A :=
  { s with
    timers := remainingTimers now s.timers,
    log := s.log ++ dueFires now s.timers }

/-- One external event on an useDebounce instance.  A call (lines 52-56)
stores the args in argsRef, clears the previous timeout and arms a new
timer capturing the current func and args.  A render updates
funcRef.current (line 44) and the closure of the handle.  Destroy runs the
cleanup of the mount effect (lines 46-50): if argsRef is set, it invokes
funcRef.current with the captured args, synchronously; it does NOT call
clearTimeout, so armed timers stay armed. -/
def applyEventS {A : Type} (delay t : Nat) (e : DbEvent A)
    (s : SafeState A) : SafeState A :=
  if s.mounted then
    match e with
    | .call args =>
        { s with
          argsRef := some args,
          timers := clearTimeoutOn s.timeoutRef s.timers ++
            [⟨s.nextId, t + delay, s.currentFunc, args⟩],
          timeoutRef := some s.nextId,
          nextId := s.nextId + 1 }
    | .render f => { s with currentFunc := f }
    | .destroy =>
        { s with
          mounted := false,
          log := s.log ++ (match s.argsRef with
            | some a => [⟨t, s.currentFunc, a⟩]
            | none => []) }
  else s

/-- Process one timestamped event on an useDebounce instance. -/
def stepS {A : Type} (delay : Nat) (s : SafeState A)
    (te : Nat × DbEvent A) : SafeState A :=
  applyEventS delay te.1 te.2 (fireDueS te.1 s)

/-- Run a timestamped event trace on a fresh useDebounce instance. -/
def runS {A : Type} (delay : Nat) (evs : List (Nat × DbEvent A)) :
    SafeState A :=
  evs.foldl (stepS delay) .init

/-- Let every still-armed timer fire at its deadline. -/
def fireAllS {A : Type} (s : SafeState A) : SafeState A :=
  { s with
    timers := [],
    log := s.log ++ s.timers.map (fun tm => ⟨tm.deadline, tm.funcId, tm.args⟩) }

/-- Run a trace and then let every remaining timer fire. -/
def runFullS {A : Type} (delay : Nat) (evs : List (Nat × DbEvent A)) :
    SafeState A :=
  fireAllS (runS delay evs)

/-- External events driving an useDebouncedState instance: a call of the
returned setter, a render of the component with the externally-owned value
the parent currently passes, and destruction (unmount). -/
inductive DsEvent (S : Type) where
  | setValue (v : S)
  | renderWith (ext : S)
  | destroy
deriving Repr, DecidableEq

/-- State of one useDebouncedState instance (src/index.ts lines 68-89):
the committed internal state cell, the internalStateRef mirror (line 72
sets it to the internal state on every render, so it lags the committed
cell between a setInternalState and the next render), the value of the
`state` dependency for which the reconciliation effect (lines 82-86) last
ran, and the embedded useDebounce(setState, delay) instance whose wrapped
function (id 0, constant) is the external setter.  The embedded log is
thus the record of externalSetter invocations. -/
structure DsState (S : Type) where
  internalState : S
  internalStateRef : S
  lastDep : S
  sub : SafeState S
deriving Repr, DecidableEq

/-- Initial state at mount with external value s0: useState(state) seeds
the internal cell, the ref mirrors it, and the mount run of the
reconciliation effect records s0 as the last-seen dependency (its body
compares s0 with the ref holding s0, a no-op). -/
def DsState.init {S : Type} (s0 : S) : DsState S :=
  ⟨s0, s0, s0, .init⟩

/-- One external event on an useDebouncedState instance.  handleSetState
(lines 76-79) commits the new internal value and calls the debounced
external setter with it.  A render first runs line 72 (ref := committed
internal state); then the effect with dependency list [state] runs only
when the external value differs from the one it last ran for, and its body
(lines 83-85) overwrites the internal cell with the external value when
the two differ.  Destroy unmounts the embedded useDebounce instance,
running its flush cleanup. -/
def applyEventDs {S : Type} [DecidableEq S] (delay t : Nat) (e : DsEvent S)
    (s : DsState S) : DsState S :=
  match e with
  | .setValue v =>
      { s with
        internalState := v,
        sub := applyEventS delay t (.call v) s.sub }
  | .renderWith ext =>
      if ext = s.lastDep then
        { s with internalStateRef := s.internalState }
      else
        { s with
          internalStateRef := s.internalState,
          lastDep := ext,
          internalState :=
            if ext = s.internalState then s.internalState else ext }
  | .destroy => { s with sub := applyEventS delay t .destroy s.sub }

/-- Process one timestamped event on an useDebouncedState instance: run
the due timer callbacks of the embedded debounce first (they invoke the
external setter), then apply the event. -/
def stepDs {S : Type} [DecidableEq S] (delay : Nat) (s : DsState S)
    (te : Nat × DsEvent S) : DsState S :=
  applyEventDs delay te.1 te.2 { s with sub := fireDueS te.1 s.sub }

/-- Run a timestamped event trace on a fresh useDebouncedState instance
mounted with external value s0. -/
def runDs {S : Type} [DecidableEq S] (delay : Nat) (s0 : S)
    (evs : List (Nat × DsEvent S)) : DsState S :=
  evs.foldl (stepDs delay) (.init s0)

/-- A timestamped list of argument tuples, as a trace of calls of the
debounced handle. -/
def callEvents {A : Type} (calls : List (Nat × A)) : List (Nat × DbEvent A) :=
  calls.map (fun p => (p.1, DbEvent.call p.2))

/-- Every armed timer of a safe instance has deadline at least B. -/
def DlBound {A : Type} (B : Nat) (s : SafeState A) : Prop :=
  ∀ tm ∈ s.timers, B ≤ tm.deadline

/-- Timer-set invariant of the unsafe variant: either no timer is armed,
or exactly one is and its id is the one stored in timeoutRef. -/
def TimerInvU {A : Type} (s : UnsafeState A) : Prop :=
  s.timers = [] ∨ ∃ tm, s.timers = [tm] ∧ s.timeoutRef = some tm.id

/-- Timer-set invariant of the safe variant. -/
def TimerInvS {A : Type} (s : SafeState A) : Prop :=
  s.timers = [] ∨ ∃ tm, s.timers = [tm] ∧ s.timeoutRef = some tm.id

theorem timerInvU_init {A : Type} : TimerInvU (UnsafeState.init (A := A)) :=
  Or.inl rfl

theorem timerInvS_init {A : Type} : TimerInvS (SafeState.init (A := A)) :=
  Or.inl rfl

theorem timerInvU_fireDue {A : Type} (now : Nat) (s : UnsafeState A)
    (h : TimerInvU s) : TimerInvU (fireDueU now s) := by
  rcases h with h | ⟨tm, hts, href⟩
  · left
    simp [fireDueU, remainingTimers, h]
  · by_cases hd : now < tm.deadline
    · right
      exact ⟨tm, by simp [fireDueU, remainingTimers, hts, hd], href⟩
    · left
      simp [fireDueU, remainingTimers, hts, hd]

theorem timerInvS_fireDue {A : Type} (now : Nat) (s : SafeState A)
    (h : TimerInvS s) : TimerInvS (fireDueS now s) := by
  rcases h with h | ⟨tm, hts, href⟩
  · left
    simp [fireDueS, remainingTimers, h]
  · by_cases hd : now < tm.deadline
    · right
      exact ⟨tm, by simp [fireDueS, remainingTimers, hts, hd], href⟩
    · left
      simp [fireDueS, remainingTimers, hts, hd]

theorem timerInvU_apply {A : Type} (delay t : Nat) (e : DbEvent A)
    (s : UnsafeState A) (h : TimerInvU s) :
    TimerInvU (applyEventU delay t e s) := by
  by_cases hm : s.mounted = true
  · cases e with
    | call args =>
        right
        refine ⟨⟨s.nextId, t + delay, s.currentFunc, args⟩, ?_, by
          simp [applyEventU, hm]⟩
        rcases h with hts | ⟨tm, hts, href⟩
        · cases href : s.timeoutRef <;>
            simp [applyEventU, hm, clearTimeoutOn, hts, href]
        · simp [applyEventU, hm, clearTimeoutOn, hts, href]
    | render f =>
        rcases h with hts | ⟨tm, hts, href⟩
        · left; simp [applyEventU, hm, hts]
        · right; exact ⟨tm, by simp [applyEventU, hm, hts], by
            simp [applyEventU, hm, href]⟩
    | destroy =>
        rcases h with hts | ⟨tm, hts, href⟩
        · left; simp [applyEventU, hm, hts]
        · right; exact ⟨tm, by simp [applyEventU, hm, hts], by
            simp [applyEventU, hm, href]⟩
  · simpa [applyEventU, hm] using h

theorem timerInvS_apply {A : Type} (delay t : Nat) (e : DbEvent A)
    (s : SafeState A) (h : TimerInvS s) :
    TimerInvS (applyEventS delay t e s) := by
  by_cases hm : s.mounted = true
  · cases e with
    | call args =>
        right
        refine ⟨⟨s.nextId, t + delay, s.currentFunc, args⟩, ?_, by
          simp [applyEventS, hm]⟩
        rcases h with hts | ⟨tm, hts, href⟩
        · cases href : s.timeoutRef <;>
            simp [applyEventS, hm, clearTimeoutOn, hts, href]
        · simp [applyEventS, hm, clearTimeoutOn, hts, href]
    | render f =>
        rcases h with hts | ⟨tm, hts, href⟩
        · left; simp [applyEventS, hm, hts]
        · right; exact ⟨tm, by simp [applyEventS, hm, hts], by
            simp [applyEventS, hm, href]⟩
    | destroy =>
        rcases h with hts | ⟨tm, hts, href⟩
        · left; simp [applyEventS, hm, hts]
        · right; exact ⟨tm, by simp [applyEventS, hm, hts], by
            simp [applyEventS, hm, href]⟩
  · simpa [applyEventS, hm] using h

theorem timerInvU_foldl {A : Type} (delay : Nat)
    (evs : List (Nat × DbEvent A)) :
    ∀ s : UnsafeState A, TimerInvU s →
      TimerInvU (evs.foldl (stepU delay) s) := by
  induction evs with
  | nil => intro s hs; exact hs
  | cons p rest ih =>
      intro s hs
      exact ih _ (timerInvU_apply _ _ _ _ (timerInvU_fireDue _ _ hs))

theorem timerInvS_foldl {A : Type} (delay : Nat)
    (evs : List (Nat × DbEvent A)) :
    ∀ s : SafeState A, TimerInvS s →
      TimerInvS (evs.foldl (stepS delay) s) := by
  induction evs with
  | nil => intro s hs; exact hs
  | cons p rest ih =>
      intro s hs
      exact ih _ (timerInvS_apply _ _ _ _ (timerInvS_fireDue _ _ hs))

theorem timerInvU_run {A : Type} (delay : Nat)
    (evs : List (Nat × DbEvent A)) : TimerInvU (runU delay evs) :=
  timerInvU_foldl delay evs _ timerInvU_init

theorem timerInvS_run {A : Type} (delay : Nat)
    (evs : List (Nat × DbEvent A)) : TimerInvS (runS delay evs) :=
  timerInvS_foldl delay evs _ timerInvS_init

/-- Once argsRef has been set it is never cleared: no step of the safe
variant writes undefined back into it (the timer callback of line 55 and
the cleanup of lines 46-50 never touch it, and a call overwrites it with
a defined tuple). -/
theorem argsRef_stepS_set {A : Type} (delay : Nat) (s : SafeState A)
    (te : Nat × DbEvent A) (h : s.argsRef ≠ none) :
    (stepS delay s te).argsRef ≠ none := by
  obtain ⟨t, e⟩ := te
  by_cases hm : s.mounted = true
  · cases e with
    | call args => simp [stepS, applyEventS, fireDueS, hm]
    | render f => simpa [stepS, applyEventS, fireDueS, hm] using h
    | destroy => simpa [stepS, applyEventS, fireDueS, hm] using h
  · simpa [stepS, applyEventS, fireDueS, hm] using h

/-- Destruction is the only event that unmounts: a destroy-free trace
leaves the safe instance mounted, and once the handle has been called the
captured argument tuple stays set. -/
theorem safe_no_destroy_foldl {A : Type} (delay : Nat)
    (evs : List (Nat × DbEvent A))
    (hnd : ∀ p ∈ evs, p.2 ≠ DbEvent.destroy) :
    ∀ s : SafeState A, s.mounted = true →
      (evs.foldl (stepS delay) s).mounted = true ∧
      (((∃ p ∈ evs, ∃ a, p.2 = DbEvent.call a) ∨ s.argsRef ≠ none) →
        (evs.foldl (stepS delay) s).argsRef ≠ none) := by
  induction evs with
  | nil =>
      intro s hs
      refine ⟨hs, fun h => ?_⟩
      rcases h with ⟨p, hp, _⟩ | h
      · exact absurd hp (List.not_mem_nil p)
      · exact h
  | cons p rest ih =>
      intro s hs
      have hpd : p.2 ≠ DbEvent.destroy := hnd p (List.mem_cons_self p rest)
      have hrest : ∀ q ∈ rest, q.2 ≠ DbEvent.destroy :=
        fun q hq => hnd q (List.mem_cons_of_mem p hq)
      obtain ⟨t, e⟩ := p
      have hm1 : (fireDueS t s).mounted = true := hs
      have hstep : (stepS delay s (t, e)).mounted = true := by
        cases e with
        | call args => simp [stepS, applyEventS, fireDueS, hs]
        | render f => simp [stepS, applyEventS, fireDueS, hs]
        | destroy => exact absurd rfl hpd
      rw [List.foldl_cons]
      refine ⟨(ih hrest _ hstep).1, fun h => ?_⟩
      refine (ih hrest _ hstep).2 ?_
      rcases h with ⟨q, hq, a, hqa⟩ | h
      · rcases List.mem_cons.mp hq with hq1 | hq2
        · right
          have : e = DbEvent.call a := by
            have := hqa
            rw [hq1] at this
            exact this
          subst this
          simp [stepS, applyEventS, fireDueS, hs]
        · exact Or.inl ⟨q, hq2, a, hqa⟩
      · exact Or.inr (argsRef_stepS_set delay s (t, e) h)

/-- The invocation log only grows along a trace of the safe variant. -/
theorem log_grows_fireAllS {A : Type} (s : SafeState A) :
    ∃ l, (fireAllS s).log = s.log ++ l :=
  ⟨_, rfl⟩

end UseDebounceModel

section Sanity

open UseDebounceModel

example : (runFullU 500 [(0, DbEvent.call 5)]).log
    = [⟨500, 0, 5⟩] := by decide

example : (runFullS 500 [(0, DbEvent.call 5), (1000, DbEvent.destroy)]).log
    = [⟨500, 0, 5⟩, ⟨1000, 0, 5⟩] := by decide

example :
    (runDs 500 0 [(10, DsEvent.setValue 1), (20, DsEvent.renderWith 0)]).internalState
      = 1 := by decide

example :
    (runDs 500 0 [(10, DsEvent.setValue 1), (20, DsEvent.renderWith 2)]).internalState
      = 2 := by decide

example :
    (runDs 500 0 [(10, DsEvent.setValue 1)]).sub.log = [] := by decide

example :
    (runDs 500 0 [(10, DsEvent.setValue 1), (510, DsEvent.renderWith 0)]).sub.log
      = [⟨510, 0, 1⟩] := by decide

end Sanity

namespace UseDebounceModel

/-- C1: the claim says the pending timer of useUnsafeDebounce is discarded
at teardown, so the wrapped function is never invoked for a call still
pending when the owning instance is destroyed.  Evaluating the code at the
failing input delay 500, call with argument 5 at t0, destroy at t50 shows
the opposite: useUnsafeDebounce registers no unmount cleanup, the armed
setTimeout survives destruction, and the wrapped function IS invoked at
t500 for the pending call, contradicting the JSDoc of useUnsafeDebounce
(the function will not be called a final time). -/
theorem c1_pending_timer_survives_destroy :
    (runFullU 500 [(0, DbEvent.call 5), (50, DbEvent.destroy)]).log
      = [⟨500, 0, 5⟩] := by decide

/-- C2 counterexample: delay 500, one call with argument 3 at t0, timer
fires at t500, destroy at t1000.  The timer fire does not clear argsRef
and the teardown cleanup flushes unconditionally, so the wrapped function
is invoked twice, refuting invoked exactly once, never by both paths. -/
theorem c2_counterexample :
    (runFullS 500 [(0, DbEvent.call 3), (1000, DbEvent.destroy)]).log
      = [⟨500, 0, 3⟩, ⟨1000, 0, 3⟩] ∧
    (runFullS 500 [(0, DbEvent.call 3), (1000, DbEvent.destroy)]).log.length
      ≠ 1 := by decide

/-- C2 amended: for useDebounce, if the handle was called at least once
and the component instance is eventually destroyed, the wrapped function
is invoked at least once, never zero times; exactly once is not
guaranteed, since the timer fire and the teardown-flush can each invoke
it (the fire does not clear argsRef and the teardown does not cancel the
timer). -/
theorem c2_amended_invoked_at_least_once {A : Type} (delay t : Nat)
    (evs : List (Nat × DbEvent A))
    (hnd : ∀ p ∈ evs, p.2 ≠ DbEvent.destroy)
    (hcall : ∃ p ∈ evs, ∃ a, p.2 = DbEvent.call a) :
    1 ≤ (runFullS delay (evs ++ [(t, DbEvent.destroy)])).log.length := by
  have hfacts := safe_no_destroy_foldl delay evs hnd SafeState.init rfl
  have hm : (runS delay evs).mounted = true := hfacts.1
  have hargs : (runS delay evs).argsRef ≠ none := hfacts.2 (Or.inl hcall)
  obtain ⟨a, ha⟩ : ∃ a, (runS delay evs).argsRef = some a := by
    cases hx : (runS delay evs).argsRef with
    | none => exact absurd hx hargs
    | some a => exact ⟨a, rfl⟩
  rw [runFullS, runS, List.foldl_append]
  rw [runS] at hm ha
  set s1 := List.foldl (stepS delay) SafeState.init evs with hs1
  have hm2 : (fireDueS t s1).mounted = true := hm
  have ha2 : (fireDueS t s1).argsRef = some a := ha
  simp only [List.foldl_cons, List.foldl_nil, stepS, applyEventS, hm2, ha2,
    if_true, fireAllS]
  simp [List.length_append]
  omega

/-- C3 counterexample: delay 500, call with argument 42 at t0, destroy at
t50 (before the deadline).  The teardown flush invokes the function at
t50 with argument 42, but the pending timer is not cancelled and fires at
t500, invoking the function a second time, refuting invoked exactly once. -/
theorem c3_counterexample :
    (runFullS 500 [(0, DbEvent.call 42), (50, DbEvent.destroy)]).log
      = [⟨50, 0, 42⟩, ⟨500, 0, 42⟩] ∧
    (runFullS 500 [(0, DbEvent.call 42), (50, DbEvent.destroy)]).log.length
      ≠ 1 := by decide

/-- C3 amended: for useDebounce, if the owning instance is destroyed
before delayMs has elapsed after the last call, the wrapped function is
invoked synchronously during destruction with the arguments of that last
call, but not exactly once: the pending timer is not cancelled at
teardown, so it fires at its deadline and invokes the function a second
time with the same arguments. -/
theorem c3_amended_flush_then_fire {A : Type} (delay t1 t2 : Nat) (a : A)
    (_h12 : t1 ≤ t2) (h2 : t2 < t1 + delay) :
    (runFullS delay [(t1, DbEvent.call a), (t2, DbEvent.destroy)]).log
      = [⟨t2, 0, a⟩, ⟨t1 + delay, 0, a⟩] := by
  have h2' : ¬ (t1 + delay ≤ t2) := by omega
  simp [runFullS, runS, stepS, applyEventS, fireDueS, fireAllS,
    clearTimeoutOn, remainingTimers, dueFires, SafeState.init, h2, h2']

/-- C3 witness. -/
theorem c3_witness :
    (0 : Nat) ≤ 50 ∧ 50 < 0 + 500 ∧
    (runFullS 500 [(0, DbEvent.call 7), (50, DbEvent.destroy)]).log
      = [⟨50, 0, 7⟩, ⟨0 + 500, 0, 7⟩] :=
  ⟨by decide, by decide,
    c3_amended_flush_then_fire 500 0 50 7 (by decide) (by decide)⟩

/-- During a run of rapid calls of the unsafe handle, each call finds the
previous timer still pending (the next call comes before its deadline),
cancels it and arms a fresh one, so the state keeps a single timer for
the latest call and nothing is logged. -/
theorem rapid_foldU {A : Type} (delay : Nat) :
    ∀ (calls : List (Nat × A)) (t0 : Nat) (a0 : A) (i f : Nat)
      (L : List (Invocation A)),
      List.Chain' (fun p q => q.1 < p.1 + delay) ((t0, a0) :: calls) →
      ∃ j : Nat,
        (callEvents calls).foldl (stepU delay)
            ⟨some i, f, [⟨i, t0 + delay, f, a0⟩], i + 1, true, L⟩
          = ⟨some j, f,
             [⟨j, (calls.getLastD (t0, a0)).1 + delay, f,
               (calls.getLastD (t0, a0)).2⟩],
             j + 1, true, L⟩ := by
  intro calls
  induction calls with
  | nil =>
      intro t0 a0 i f L hch
      exact ⟨i, by simp [callEvents]⟩
  | cons p rest ih =>
      intro t0 a0 i f L hch
      obtain ⟨t1, a1⟩ := p
      have h01 : t1 < t0 + delay := (List.chain'_cons.mp hch).1
      have hch1 : List.Chain' (fun p q => q.1 < p.1 + delay)
          ((t1, a1) :: rest) := (List.chain'_cons.mp hch).2
      have hnd : ¬ (t0 + delay ≤ t1) := by omega
      have hstep :
          stepU delay ⟨some i, f, [⟨i, t0 + delay, f, a0⟩], i + 1, true, L⟩
              (t1, DbEvent.call a1)
            = ⟨some (i + 1), f, [⟨i + 1, t1 + delay, f, a1⟩], i + 1 + 1,
               true, L⟩ := by
        simp [stepU, applyEventU, fireDueU, clearTimeoutOn, remainingTimers,
          dueFires, h01, hnd]
      obtain ⟨j, hj⟩ := ih t1 a1 (i + 1) f L hch1
      refine ⟨j, ?_⟩
      simp only [callEvents, List.map_cons, List.foldl_cons]
      rw [hstep]
      rw [List.getLastD_cons]
      simpa [callEvents] using hj

/-- The safe-variant counterpart of the rapid-call run: additionally the
argsRef cell ends holding the argument tuple of the latest call. -/
theorem rapid_foldS {A : Type} (delay : Nat) :
    ∀ (calls : List (Nat × A)) (t0 : Nat) (a0 : A) (i f : Nat)
      (L : List (Invocation A)),
      List.Chain' (fun p q => q.1 < p.1 + delay) ((t0, a0) :: calls) →
      ∃ j : Nat,
        (callEvents calls).foldl (stepS delay)
            ⟨some i, some a0, f, [⟨i, t0 + delay, f, a0⟩], i + 1, true, L⟩
          = ⟨some j, some (calls.getLastD (t0, a0)).2, f,
             [⟨j, (calls.getLastD (t0, a0)).1 + delay, f,
               (calls.getLastD (t0, a0)).2⟩],
             j + 1, true, L⟩ := by
  intro calls
  induction calls with
  | nil =>
      intro t0 a0 i f L hch
      exact ⟨i, by simp [callEvents]⟩
  | cons p rest ih =>
      intro t0 a0 i f L hch
      obtain ⟨t1, a1⟩ := p
      have h01 : t1 < t0 + delay := (List.chain'_cons.mp hch).1
      have hch1 : List.Chain' (fun p q => q.1 < p.1 + delay)
          ((t1, a1) :: rest) := (List.chain'_cons.mp hch).2
      have hnd : ¬ (t0 + delay ≤ t1) := by omega
      have hstep :
          stepS delay
              ⟨some i, some a0, f, [⟨i, t0 + delay, f, a0⟩], i + 1, true, L⟩
              (t1, DbEvent.call a1)
            = ⟨some (i + 1), some a1, f, [⟨i + 1, t1 + delay, f, a1⟩],
               i + 1 + 1, true, L⟩ := by
        simp [stepS, applyEventS, fireDueS, clearTimeoutOn, remainingTimers,
          dueFires, h01, hnd]
      obtain ⟨j, hj⟩ := ih t1 a1 (i + 1) f L hch1
      refine ⟨j, ?_⟩
      simp only [callEvents, List.map_cons, List.foldl_cons]
      rw [hstep]
      rw [List.getLastD_cons]
      simpa [callEvents] using hj

/-- C4 counterexample: for the safe variant the claim fails as stated.
Input: delay 500, a single call with argument 7 at t0 (an N equal 1
sequence, trivially rapid), destroy at t600, after the final deadline
t500 as the claim allows.  The timer fire at t500 delivers the call, but
the teardown-flush at t600 invokes the function again with the same
arguments, so the function is not invoked exactly once. -/
theorem c4_counterexample :
    (runFullS 500 [(0, DbEvent.call 7), (600, DbEvent.destroy)]).log
      = [⟨500, 0, 7⟩, ⟨600, 0, 7⟩] ∧
    (runFullS 500 [(0, DbEvent.call 7), (600, DbEvent.destroy)]).log.length
      ≠ 1 := by decide

/-- C4 amended: for every nonempty sequence of rapid calls (each later
call strictly less than delayMs after the previous one) and no
destruction at any point in the execution, the wrapped function is
invoked exactly once, with the argument tuple of the last call, delayMs
after that last call - in both variants.  (As stated the claim fails for
the safe variant when a destruction follows the final deadline, since the
teardown-flush then invokes the function a second time.) -/
theorem c4_amended_rapid_calls_fire_once {A : Type} (delay : Nat)
    (c0 : Nat × A) (rest : List (Nat × A))
    (hrapid : List.Chain' (fun p q => q.1 < p.1 + delay) (c0 :: rest)) :
    (runFullU delay (callEvents (c0 :: rest))).log
      = [⟨(rest.getLastD c0).1 + delay, 0, (rest.getLastD c0).2⟩] ∧
    (runFullS delay (callEvents (c0 :: rest))).log
      = [⟨(rest.getLastD c0).1 + delay, 0, (rest.getLastD c0).2⟩] := by
  obtain ⟨t0, a0⟩ := c0
  constructor
  · rw [runFullU, runU]
    have hfirst : stepU delay UnsafeState.init (t0, DbEvent.call a0)
        = ⟨some 0, 0, [⟨0, t0 + delay, 0, a0⟩], 0 + 1, true, []⟩ := by
      simp [stepU, applyEventU, fireDueU, clearTimeoutOn, remainingTimers,
        dueFires, UnsafeState.init]
    simp only [callEvents, List.map_cons, List.foldl_cons]
    rw [hfirst]
    obtain ⟨j, hj⟩ := rapid_foldU delay rest t0 a0 0 0 [] hrapid
    simp only [callEvents] at hj
    rw [hj]
    simp [fireAllU]
  · rw [runFullS, runS]
    have hfirst : stepS delay SafeState.init (t0, DbEvent.call a0)
        = ⟨some 0, some a0, 0, [⟨0, t0 + delay, 0, a0⟩], 0 + 1, true, []⟩ := by
      simp [stepS, applyEventS, fireDueS, clearTimeoutOn, remainingTimers,
        dueFires, SafeState.init]
    simp only [callEvents, List.map_cons, List.foldl_cons]
    rw [hfirst]
    obtain ⟨j, hj⟩ := rapid_foldS delay rest t0 a0 0 0 [] hrapid
    simp only [callEvents] at hj
    rw [hj]
    simp [fireAllS]

/-- C4 witness: two rapid calls, delay 500, arguments 1 then 2 at t0 and
t100: one invocation with argument 2 at t600, in both variants. -/
theorem c4_witness :
    List.Chain' (fun p q : Nat × Nat => q.1 < p.1 + 500)
      ((0, 1) :: [(100, 2)]) ∧
    (runFullU 500 (callEvents ((0, 1) :: [(100, 2)]))).log
      = [⟨([(100, 2)].getLastD (0, 1)).1 + 500, 0,
          ([(100, 2)].getLastD (0, 1)).2⟩] ∧
    (runFullS 500 (callEvents ((0, 1) :: [(100, 2)]))).log
      = [⟨([(100, 2)].getLastD (0, 1)).1 + 500, 0,
          ([(100, 2)].getLastD (0, 1)).2⟩] := by
  refine ⟨List.chain'_pair.mpr (by decide), ?_, ?_⟩
  · exact (c4_amended_rapid_calls_fire_once 500 (0, 1) [(100, 2)]
      (List.chain'_pair.mpr (by decide))).1
  · exact (c4_amended_rapid_calls_fire_once 500 (0, 1) [(100, 2)]
      (List.chain'_pair.mpr (by decide))).2

/-- C5 counterexample: delay 500, call with argument 9 at t0 while the
function reference is 0, then a render changes the reference to 1 at
t100.  At the timer fire t500 the latest reference is 1, but the fire
invokes reference 0, the one the timer closure captured when it was
armed, refuting that the reference used at fire time is always the
latest one. -/
theorem c5_counterexample :
    (runFullS 500 [(0, DbEvent.call 9), (100, DbEvent.render 1)]).log
      = [⟨500, 0, 9⟩] ∧
    (runS 500 [(0, DbEvent.call 9), (100, DbEvent.render 1)]).currentFunc
      = 1 := by decide

/-- C5 amended: in useDebounce the teardown-flush uses the latest
function reference with the arguments of the most recent call, but a
timer fire uses the function reference captured when that timer was
armed, not necessarily the latest one.  Scenario: the reference is f when
the handle is called at t1; it changes to g at t2; destruction at t3
(before the deadline) flushes with g and the latest arguments, and the
uncancelled timer then fires at the deadline with the older f. -/
theorem c5_amended_flush_latest_fire_armed {A : Type}
    (delay t0 t1 t2 t3 : Nat) (a : A) (f g : Nat)
    (_h01 : t0 ≤ t1) (_h12 : t1 ≤ t2) (h23 : t2 ≤ t3) (h3 : t3 < t1 + delay) :
    (runFullS delay [(t0, DbEvent.render f), (t1, DbEvent.call a),
        (t2, DbEvent.render g), (t3, DbEvent.destroy)]).log
      = [⟨t3, g, a⟩, ⟨t1 + delay, f, a⟩] := by
  have h2 : ¬ (t1 + delay ≤ t2) := by omega
  have h2' : t2 < t1 + delay := by omega
  have h3' : ¬ (t1 + delay ≤ t3) := by omega
  simp [runFullS, runS, stepS, applyEventS, fireDueS, fireAllS,
    clearTimeoutOn, remainingTimers, dueFires, SafeState.init, h2, h2',
    h3, h3']

/-- C5 witness. -/
theorem c5_witness :
    (0 : Nat) ≤ 10 ∧ (10 : Nat) ≤ 20 ∧ (20 : Nat) ≤ 30 ∧ 30 < 10 + 500 ∧
    (runFullS 500 [(0, DbEvent.render 4), (10, DbEvent.call 9),
        (20, DbEvent.render 6), (30, DbEvent.destroy)]).log
      = [⟨30, 6, 9⟩, ⟨10 + 500, 4, 9⟩] :=
  ⟨by decide, by decide, by decide, by decide,
    c5_amended_flush_latest_fire_armed 500 0 10 20 30 9 4 6
      (by decide) (by decide) (by decide) (by decide)⟩

/-- C8: if the debounced handle of useDebounce was never called during
the instance lifetime, destruction invokes the wrapped function zero
times: argsRef stays undefined, no timer is ever armed, and the cleanup
of lines 46-50 guards the flush on argsRef being defined. -/
theorem c8_no_call_no_invocation {A : Type} (delay t : Nat)
    (evs : List (Nat × DbEvent A))
    (hnc : ∀ p ∈ evs, ∀ a : A, p.2 ≠ DbEvent.call a) :
    (runFullS delay (evs ++ [(t, DbEvent.destroy)])).log = [] := by
  have key : ∀ (l : List (Nat × DbEvent A)),
      (∀ p ∈ l, ∀ a : A, p.2 ≠ DbEvent.call a) →
      ∀ s : SafeState A, s.argsRef = none → s.timers = [] → s.log = [] →
        (l.foldl (stepS delay) s).argsRef = none ∧
        (l.foldl (stepS delay) s).timers = [] ∧
        (l.foldl (stepS delay) s).log = [] := by
    intro l
    induction l with
    | nil => intro _ s h1 h2 h3; exact ⟨h1, h2, h3⟩
    | cons p rest ih =>
        intro hl s h1 h2 h3
        obtain ⟨tt, e⟩ := p
        have hrest : ∀ q ∈ rest, ∀ a : A, q.2 ≠ DbEvent.call a :=
          fun q hq => hl q (List.mem_cons_of_mem _ hq)
        rw [List.foldl_cons]
        cases e with
        | call args =>
            exact absurd rfl (hl (tt, DbEvent.call args)
              (List.mem_cons_self _ rest) args)
        | render f =>
            refine ih hrest _ ?_ ?_ ?_ <;>
              by_cases hm : s.mounted = true <;>
              simp [stepS, applyEventS, fireDueS, remainingTimers, dueFires,
                hm, h1, h2, h3]
        | destroy =>
            refine ih hrest _ ?_ ?_ ?_ <;>
              by_cases hm : s.mounted = true <;>
              simp [stepS, applyEventS, fireDueS, remainingTimers, dueFires,
                hm, h1, h2, h3]
  have hall : ∀ p ∈ evs ++ [(t, DbEvent.destroy)], ∀ a : A,
      p.2 ≠ DbEvent.call a := by
    intro p hp a
    rcases List.mem_append.mp hp with hp1 | hp2
    · exact hnc p hp1 a
    · rcases List.mem_singleton.mp hp2 with rfl
      simp
  obtain ⟨_, h2, h3⟩ := key (evs ++ [(t, DbEvent.destroy)]) hall
    SafeState.init rfl rfl rfl
  rw [runFullS, runS]
  simp only [fireAllS]
  rw [h2, h3]
  simp

/-- C8 witness: an instance that only re-renders and is then destroyed
performs no invocation. -/
theorem c8_witness :
    (runFullS 500 ([(5, DbEvent.render 1)] ++
      [(50, DbEvent.destroy)])).log = ([] : List (Invocation Nat)) :=
  c8_no_call_no_invocation 500 50 [(5, DbEvent.render 1)]
    (by intro p hp a; rcases List.mem_singleton.mp hp with rfl; simp)

/-- C10: in useDebounce a timer fire never clears the argsRef cell - no
step of the instance resets it once set - so a teardown that happens
after a completed fire invokes the wrapped function again at cleanup
with the already-delivered arguments.  First conjunct: any step
preserves the cell being set.  Second conjunct: call with tuple a at t1,
the timer completes at its deadline t1 plus delay, destruction at a
later t2 flushes the same tuple a second time. -/
theorem c10_args_persist_teardown_reinvokes {A : Type}
    (delay t1 t2 : Nat) (a : A) (s : SafeState A) (te : Nat × DbEvent A)
    (hset : s.argsRef ≠ none) (hfired : t1 + delay ≤ t2) :
    (stepS delay s te).argsRef ≠ none ∧
    (runS delay [(t1, DbEvent.call a), (t2, DbEvent.destroy)]).log
      = [⟨t1 + delay, 0, a⟩, ⟨t2, 0, a⟩] := by
  refine ⟨argsRef_stepS_set delay s te hset, ?_⟩
  simp [runS, stepS, applyEventS, fireDueS, clearTimeoutOn,
    remainingTimers, dueFires, SafeState.init, hfired,
    Nat.not_lt.mpr hfired]

/-- C10 witness. -/
theorem c10_witness :
    (stepS 500 (⟨none, some 7, 0, [], 0, true, []⟩ : SafeState Nat)
        (600, DbEvent.destroy)).argsRef ≠ none ∧
    (runS 500 [(0, DbEvent.call 7), (600, DbEvent.destroy)]).log
      = [⟨0 + 500, 0, 7⟩, ⟨600, 0, 7⟩] :=
  c10_args_persist_teardown_reinvokes 500 0 600 7
    ⟨none, some 7, 0, [], 0, true, []⟩ (600, DbEvent.destroy)
    (by simp) (by decide)

/-- A timer-service pass at a time strictly before every armed deadline
fires nothing and changes nothing. -/
theorem fireDueS_noop {A : Type} (t : Nat) (s : SafeState A)
    (h : ∀ tm ∈ s.timers, t < tm.deadline) : fireDueS t s = s := by
  have h1 : s.timers.filter (fun tm => decide (t < tm.deadline)) = s.timers :=
    List.filter_eq_self.mpr (fun tm hm => by simpa using h tm hm)
  have h2 : s.timers.filter (fun tm => decide (tm.deadline ≤ t)) = [] :=
    List.filter_eq_nil_iff.mpr
      (fun tm hm => by simpa using Nat.not_le.mpr (h tm hm))
  simp [fireDueS, remainingTimers, dueFires, h1, h2]

/-- clearTimeout only removes timers. -/
theorem mem_clearTimeoutOn {A : Type} {r : Option Nat} {ts : List (Timer A)}
    {tm : Timer A} (h : tm ∈ clearTimeoutOn r ts) : tm ∈ ts := by
  cases r with
  | none => exact h
  | some i => exact (List.mem_filter.mp h).1

/-- A call on a mounted safe instance whose timer set satisfies the
invariant leaves exactly the one freshly armed timer. -/
theorem call_timers_after_inv {A : Type} (delay t : Nat) (a : A)
    (s : SafeState A) (hinv : TimerInvS s) (hm : s.mounted = true) :
    (applyEventS delay t (DbEvent.call a) s).timers
      = [⟨s.nextId, t + delay, s.currentFunc, a⟩] := by
  rcases hinv with hts | ⟨tm, hts, href⟩
  · cases href : s.timeoutRef <;>
      simp [applyEventS, hm, clearTimeoutOn, hts, href]
  · simp [applyEventS, hm, clearTimeoutOn, hts, href]

/-- The timer-set invariant holds for the embedded useDebounce instance
of every reachable useDebouncedState state. -/
theorem timerInvDs_step {S : Type} [DecidableEq S] (delay : Nat)
    (s : DsState S) (te : Nat × DsEvent S) (h : TimerInvS s.sub) :
    TimerInvS (stepDs delay s te).sub := by
  obtain ⟨t, e⟩ := te
  cases e with
  | setValue v =>
      exact timerInvS_apply _ _ _ _ (timerInvS_fireDue _ _ h)
  | renderWith ext =>
      have hsub : (stepDs delay s (t, DsEvent.renderWith ext)).sub
          = fireDueS t s.sub := by
        by_cases hed : ext = s.lastDep <;> simp [stepDs, applyEventDs, hed]
      rw [hsub]
      exact timerInvS_fireDue _ _ h
  | destroy =>
      exact timerInvS_apply _ _ _ _ (timerInvS_fireDue _ _ h)

theorem timerInvDs_run {S : Type} [DecidableEq S] (delay : Nat) (s0 : S)
    (evs : List (Nat × DsEvent S)) : TimerInvS (runDs delay s0 evs).sub := by
  rw [runDs]
  have : ∀ s : DsState S, TimerInvS s.sub →
      TimerInvS (evs.foldl (stepDs delay) s).sub := by
    induction evs with
    | nil => intro s hs; exact hs
    | cons p rest ih => intro s hs; exact ih _ (timerInvDs_step delay s p hs)
  exact this _ timerInvS_init

/-- Unmount is the only event of the state pair that unmounts the
embedded debounce instance. -/
theorem ds_mounted_no_destroy {S : Type} [DecidableEq S] (delay : Nat)
    (evs : List (Nat × DsEvent S))
    (hnd : ∀ p ∈ evs, p.2 ≠ DsEvent.destroy) :
    ∀ s : DsState S, s.sub.mounted = true →
      (evs.foldl (stepDs delay) s).sub.mounted = true := by
  induction evs with
  | nil => intro s hs; exact hs
  | cons p rest ih =>
      intro s hs
      have hrest : ∀ q ∈ rest, q.2 ≠ DsEvent.destroy :=
        fun q hq => hnd q (List.mem_cons_of_mem p hq)
      obtain ⟨t, e⟩ := p
      rw [List.foldl_cons]
      refine ih hrest _ ?_
      cases e with
      | setValue v => simp [stepDs, applyEventDs, applyEventS, fireDueS, hs]
      | renderWith ext =>
          by_cases hed : ext = s.lastDep <;>
            simp [stepDs, applyEventDs, fireDueS, hed, hs]
      | destroy =>
          exact absurd rfl (hnd (t, DsEvent.destroy)
            (List.mem_cons_self _ rest))

/-- During a window of non-destroy events all of whose times lie strictly
below every armed deadline bound B, with each rearm staying at or above
B, the embedded external-setter log does not grow and the bound is kept. -/
theorem ds_window_no_invocation {S : Type} [DecidableEq S] (delay B : Nat)
    (win : List (Nat × DsEvent S))
    (hwin : ∀ p ∈ win, p.1 < B ∧ B ≤ p.1 + delay ∧ p.2 ≠ DsEvent.destroy) :
    ∀ s : DsState S, DlBound B s.sub →
      (win.foldl (stepDs delay) s).sub.log = s.sub.log ∧
      DlBound B (win.foldl (stepDs delay) s).sub := by
  induction win with
  | nil => intro s hb; exact ⟨rfl, hb⟩
  | cons p rest ih =>
      intro s hb
      obtain ⟨t, e⟩ := p
      obtain ⟨ht, htd, hne⟩ := hwin (t, e) (List.mem_cons_self _ rest)
      have hrest : ∀ q ∈ rest, q.1 < B ∧ B ≤ q.1 + delay ∧
          q.2 ≠ DsEvent.destroy :=
        fun q hq => hwin q (List.mem_cons_of_mem _ hq)
      have hnoop : fireDueS t s.sub = s.sub :=
        fireDueS_noop t s.sub (fun tm hm => lt_of_lt_of_le ht (hb tm hm))
      rw [List.foldl_cons]
      cases e with
      | setValue v =>
          have hsub : (stepDs delay s (t, DsEvent.setValue v)).sub
              = applyEventS delay t (DbEvent.call v) s.sub := by
            simp [stepDs, applyEventDs, hnoop]
          have hlog : (stepDs delay s (t, DsEvent.setValue v)).sub.log
              = s.sub.log := by
            rw [hsub]
            by_cases hm : s.sub.mounted = true <;> simp [applyEventS, hm]
          have hbnd : DlBound B (stepDs delay s (t, DsEvent.setValue v)).sub := by
            rw [hsub]
            by_cases hm : s.sub.mounted = true
            · intro tm hmem
              simp only [applyEventS, hm, if_true] at hmem
              rcases List.mem_append.mp hmem with h1 | h2
              · exact hb tm (mem_clearTimeoutOn h1)
              · rcases List.mem_singleton.mp h2 with rfl
                exact htd
            · simpa [applyEventS, hm] using hb
          obtain ⟨hl, hbfin⟩ := ih hrest _ hbnd
          exact ⟨hl.trans hlog, hbfin⟩
      | renderWith ext =>
          have hsub : (stepDs delay s (t, DsEvent.renderWith ext)).sub
              = s.sub := by
            by_cases hed : ext = s.lastDep <;>
              simp [stepDs, applyEventDs, hed, hnoop]
          obtain ⟨hl, hbfin⟩ := ih hrest _ (by rw [hsub]; exact hb)
          refine ⟨?_, hbfin⟩
          rw [hl, hsub]
      | destroy => exact absurd rfl hne

/-- C6: for useDebouncedState, calling setValue with v makes the internal
current value equal v immediately, while the external setter is not
invoked at any point of a subsequent destruction-free window that ends
strictly before delayMs after the call: the embedded debounced
propagation armed by the call has deadline exactly the call time plus
delayMs, so the external-setter invocation log does not grow during the
window. -/
theorem c6_local_immediate_external_deferred {S : Type} [DecidableEq S]
    (delay : Nat) (s0 v : S) (pre : List (Nat × DsEvent S)) (t : Nat)
    (win : List (Nat × DsEvent S))
    (hpre : ∀ p ∈ pre, p.2 ≠ DsEvent.destroy)
    (hwin : ∀ p ∈ win, t ≤ p.1 ∧ p.1 < t + delay ∧ p.2 ≠ DsEvent.destroy) :
    (stepDs delay (runDs delay s0 pre) (t, DsEvent.setValue v)).internalState
      = v ∧
    (win.foldl (stepDs delay)
        (stepDs delay (runDs delay s0 pre) (t, DsEvent.setValue v))).sub.log
      = (stepDs delay (runDs delay s0 pre) (t, DsEvent.setValue v)).sub.log := by
  set sp := runDs delay s0 pre with hsp
  have hm0 : sp.sub.mounted = true := by
    rw [hsp, runDs]
    exact ds_mounted_no_destroy delay pre hpre _ rfl
  have hinv0 : TimerInvS sp.sub := timerInvDs_run delay s0 pre
  have hinv1 : TimerInvS (fireDueS t sp.sub) :=
    timerInvS_fireDue t sp.sub hinv0
  have hm1 : (fireDueS t sp.sub).mounted = true := hm0
  have hsub : (stepDs delay sp (t, DsEvent.setValue v)).sub
      = applyEventS delay t (DbEvent.call v) (fireDueS t sp.sub) := by
    simp [stepDs, applyEventDs]
  constructor
  · simp [stepDs, applyEventDs]
  · have hbnd : DlBound (t + delay)
        (stepDs delay sp (t, DsEvent.setValue v)).sub := by
      rw [hsub]
      intro tm hmem
      rw [call_timers_after_inv delay t v _ hinv1 hm1] at hmem
      rcases List.mem_singleton.mp hmem with rfl
      exact le_refl _
    have hwin2 : ∀ p ∈ win, p.1 < t + delay ∧ t + delay ≤ p.1 + delay ∧
        p.2 ≠ DsEvent.destroy := by
      intro p hp
      obtain ⟨h1, h2, h3⟩ := hwin p hp
      exact ⟨h2, by omega, h3⟩
    exact (ds_window_no_invocation delay (t + delay) win hwin2 _ hbnd).1

/-- C6 witness. -/
theorem c6_witness :
    (stepDs 500 (runDs 500 0 []) (0, DsEvent.setValue 1)).internalState
      = 1 ∧
    ([(100, DsEvent.renderWith 0)].foldl (stepDs 500)
        (stepDs 500 (runDs 500 0 []) (0, DsEvent.setValue 1))).sub.log
      = (stepDs 500 (runDs 500 0 []) (0, DsEvent.setValue 1)).sub.log :=
  c6_local_immediate_external_deferred 500 0 1 [] 0
    [(100, DsEvent.renderWith 0)]
    (by intro p hp; exact absurd hp (List.not_mem_nil p))
    (by
      intro p hp
      rcases List.mem_singleton.mp hp with rfl
      exact ⟨by decide, by decide, by decide⟩)

/-- C7 counterexample: external value 0 at mount, setValue 1 at t10, then
a render at t20 with the external value still 0.  The external value
differs from the last internally-applied value 1 at this observation,
yet the internal value is not overwritten: the reconciliation effect has
dependency list [state] and does not re-run when the external value is
unchanged. -/
theorem c7_counterexample :
    (runDs 500 0 [(10, DsEvent.setValue 1),
        (20, DsEvent.renderWith 0)]).internalState = 1 ∧
    (runDs 500 0 [(10, DsEvent.setValue 1),
        (20, DsEvent.renderWith 0)]).internalState ≠ 0 := by decide

/-- C7 amended: the internal value is overwritten to match the external
value on every render whose external value differs from the external
value the reconciliation effect last ran for, that is, when the external
value has changed out from under the pair; in particular, if the external
value changes to v2 not via the own setter of the pair before the debounce
fires, the current value becomes v2.  It is not overwritten merely
because the external value differs from the internal one, as after a
local setValue with an unchanged external value. -/
theorem c7_amended_resync_on_external_change {S : Type} [DecidableEq S]
    (delay t : Nat) (s : DsState S) (v2 : S) (hch : v2 ≠ s.lastDep) :
    (stepDs delay s (t, DsEvent.renderWith v2)).internalState = v2 := by
  by_cases he : v2 = s.internalState
  · subst he
    simp [stepDs, applyEventDs, hch]
  · simp [stepDs, applyEventDs, hch, he]

/-- C7 witness. -/
theorem c7_witness :
    (2 : Nat) ≠ (DsState.init 0).lastDep ∧
    (stepDs 500 (DsState.init 0) (0, DsEvent.renderWith 2)).internalState
      = 2 :=
  ⟨by decide,
    c7_amended_resync_on_external_change 500 0 (DsState.init 0) 2
      (by decide)⟩

/-- C9: for every debounced-function instance of either variant and every
event trace, at most one pending timer exists: each call runs
clearTimeout on the previously stored timeout id before arming a new
timer, so no two scheduled invocations ever coexist. -/
theorem c9_at_most_one_pending_timer {A : Type} (delay : Nat)
    (evs : List (Nat × DbEvent A)) :
    (runU delay evs).timers.length ≤ 1 ∧
    (runS delay evs).timers.length ≤ 1 := by
  constructor
  · rcases timerInvU_run delay evs with h | ⟨tm, hts, _⟩
    · simp [h]
    · simp [hts]
  · rcases timerInvS_run delay evs with h | ⟨tm, hts, _⟩
    · simp [h]
    · simp [hts]

/-- C2 witness. -/
theorem c2_witness :
    1 ≤ (runFullS 500 ([(0, DbEvent.call 4)] ++
      [(700, DbEvent.destroy)])).log.length :=
  c2_amended_invoked_at_least_once 500 700 [(0, DbEvent.call 4)]
    (by intro p hp; rcases List.mem_singleton.mp hp with rfl; simp)
    ⟨(0, DbEvent.call 4), List.mem_singleton.mpr rfl, 4, rfl⟩

end UseDebounceModel
